import Mathlib

/-!
Shallow embedding of the rellume lifter core (src/function.cc and
src/callconv.cc): the Function block map and Lift orchestration, address
resolution for control-flow stitching, the merge-placeholder fill loop, and
the calling-convention Pack/Unpack layer, together with theorems settling the
spec's claims about them.
-/

namespace Rellume

/-- Model of the `llvm::Value` shapes that function.cc and callconv.cc
inspect: constant integers (`llvm::ConstantInt`, with a bit width and raw
bits), select instructions (`llvm::SelectInst`), function values
(`llvm::Function`), function arguments, and any other opaque value. -/
inductive Value where
  | constInt (width : Nat) (bits : Nat)
  | select (cond tval fval : Value)
  | func (id : Nat)
  | arg (idx : Nat)
  | other (id : Nat)
deriving DecidableEq, Repr

/-- `llvm::dyn_cast<llvm::Function>`: `some` exactly on function values. -/
def Value.asFunc : Value → Option Nat
  | .func i => some i
  | _ => none

/-- A reference to a basic block of the lifted function: the synthetic ENTRY
or EXIT block, or the block keyed by its starting address in `block_map`. -/
inductive BlockRef where
  | entry
  | exit
  | block (addr : Nat)
deriving DecidableEq, Repr

/-- `Function::ResolveAddr` (function.cc lines 83-90): if `addr` is a
`ConstantInt` whose zero-extended value (`getZExtValue`) is a key of
`block_map`, the corresponding block; otherwise the EXIT block. The block
map is modelled by its key list. -/
def resolveAddr (blockMap : List Nat) (addr : Value) : BlockRef :=
  match addr with
  | .constInt w b => if (b % 2 ^ w) ∈ blockMap then .block (b % 2 ^ w) else .exit
  | _ => .exit

/-- The terminator stitched onto a block by `Function::Lift`: a single
unconditional branch, or a conditional branch with a selector value. -/
inductive Branch where
  | uncond (target : BlockRef)
  | cond (selector : Value) (tTarget fTarget : BlockRef)
deriving DecidableEq, Repr

/-- The branch `Function::Lift` (function.cc lines 100-109) stitches onto a
block whose symbolic next-instruction-pointer value is `nextRip`: a select
becomes a conditional branch resolving both sides, anything else an
unconditional branch to the resolved value. -/
def stitchBranch (blockMap : List Nat) (nextRip : Value) : Branch :=
  match nextRip with
  | .select c t f => .cond c (resolveAddr blockMap t) (resolveAddr blockMap f)
  | v => .uncond (resolveAddr blockMap v)

/-- The part of `LLConfig` that `Function::Lift` consults. -/
structure Config where
  verify_ir : Bool
deriving DecidableEq, Repr

/-- `rellume::Function`: the block map is modelled by its key list in
insertion order, together with the recorded entry address.  (Named `Func` as
`Function` is taken by the ambient library.) -/
structure Func where
  blockMap : List Nat
  entryAddr : Nat
deriving DecidableEq, Repr

/-- The state of a freshly constructed `Function`: no blocks yet.  The C++
member `entry_addr` is uninitialized until the first `AddInst`; it is
modelled as 0. -/
def Func.init : Func := ⟨[], 0⟩

/-- `Function::AddInst` (function.cc lines 72-81), restricted to its effect
on the block map and entry address: the first call records its address as
the entry target, and a block is created for an address only when none
exists yet.  The per-instruction lifter only mutates block contents, which
are modelled separately (see `Func.Lift`'s `nextRip` argument). -/
def Func.AddInst (f : Func) (blockAddr : Nat) : Func :=
  { entryAddr := if f.blockMap = [] then blockAddr else f.entryAddr,
    blockMap := if blockAddr ∈ f.blockMap then f.blockMap
                else f.blockMap ++ [blockAddr] }

/-- A sequence of `AddInst` calls, in order. -/
def Func.addInsts (f : Func) (addrs : List Nat) : Func :=
  addrs.foldl Func.AddInst f

/-- The control-flow stitching `Function::Lift` produces on success: the
ENTRY block's branch and, per mapped block (in map order), its branch. -/
structure LiftResult where
  entryBranch : Branch
  blockBranches : List (Nat × Branch)
deriving DecidableEq, Repr

/-- `Function::Lift` (function.cc lines 92-129): fails (returns `none`) when
no instruction was ever added; otherwise branches ENTRY unconditionally to
the block at the recorded entry address and stitches every mapped block
according to its symbolic next-rip value (supplied per address by the
external per-instruction lifter, modelled by `nextRip`); finally, if IR
verification is enabled and fails (`verifyFails` models the verifier's
outcome), returns `none` with no partial result. -/
def Func.Lift (f : Func) (nextRip : Nat → Value) (cfg : Config)
    (verifyFails : Bool) : Option LiftResult :=
  if f.blockMap = [] then none
  else
    let res : LiftResult :=
      { entryBranch := .uncond (.block f.entryAddr),
        blockBranches :=
          f.blockMap.map fun a => (a, stitchBranch f.blockMap (nextRip a)) }
    if cfg.verify_ir && verifyFails then none else some res

/-- C1: Lift() returns a failure signal (a null function) if and only if no
instruction was ever added or IR verification is enabled and fails; in every
other case it returns the lifted function, and on failure no partial
function is returned (the `Option` result carries nothing on `none`). -/
theorem lift_none_iff (f : Func) (nextRip : Nat → Value) (cfg : Config)
    (verifyFails : Bool) :
    f.Lift nextRip cfg verifyFails = none ↔
      f.blockMap = [] ∨ (cfg.verify_ir = true ∧ verifyFails = true) := by
  unfold Func.Lift
  by_cases h : f.blockMap = []
  · simp [h]
  · by_cases hv : cfg.verify_ir && verifyFails
    · simp only [if_neg h, if_pos hv]
      simp only [Bool.and_eq_true] at hv
      simp [h, hv]
    · simp only [if_neg h, if_neg hv]
      simp only [Bool.and_eq_true, not_and] at hv
      constructor
      · intro hc; exact absurd hc (by simp)
      · rintro (hc | ⟨h1, h2⟩)
        · exact absurd hc h
        · exact absurd h2 (hv h1)

/-- C2: a successor value that is a constant integer whose zero-extended
value is the starting address of an existing block resolves to that block;
a constant address with no matching block, and any non-constant value,
resolve to the EXIT block. -/
theorem resolveAddr_spec (blockMap : List Nat) (v : Value) :
    (∀ w b, v = .constInt w b → (b % 2 ^ w) ∈ blockMap →
      resolveAddr blockMap v = .block (b % 2 ^ w)) ∧
    (∀ w b, v = .constInt w b → (b % 2 ^ w) ∉ blockMap →
      resolveAddr blockMap v = .exit) ∧
    ((∀ w b, v ≠ .constInt w b) → resolveAddr blockMap v = .exit) := by
  refine ⟨?_, ?_, ?_⟩
  · intro w b hv hmem
    subst hv
    simp [resolveAddr, hmem]
  · intro w b hv hmem
    subst hv
    simp [resolveAddr, hmem]
  · intro hnc
    cases v with
    | constInt w b => exact absurd rfl (hnc w b)
    | select c t f => rfl
    | func i => rfl
    | arg i => rfl
    | other i => rfl

/-- `AddInst` always leaves at least one block in the map. -/
theorem addInst_blockMap_ne_nil (f : Func) (a : Nat) :
    (f.AddInst a).blockMap ≠ [] := by
  unfold Func.AddInst
  by_cases h : a ∈ f.blockMap
  · simp only [if_pos h]
    intro hnil
    rw [hnil] at h
    exact absurd h (List.not_mem_nil a)
  · simp [if_neg h]

/-- Once a block exists, `AddInst` never changes the entry address. -/
theorem addInst_entryAddr (f : Func) (a : Nat) (h : f.blockMap ≠ []) :
    (f.AddInst a).entryAddr = f.entryAddr := by
  simp [Func.AddInst, h]

/-- Membership in the block map after `AddInst`. -/
theorem addInst_mem (f : Func) (a x : Nat) :
    x ∈ (f.AddInst a).blockMap ↔ x ∈ f.blockMap ∨ x = a := by
  unfold Func.AddInst
  by_cases h : a ∈ f.blockMap
  · simp only [if_pos h]
    constructor
    · exact Or.inl
    · rintro (hx | hx)
      · exact hx
      · exact hx ▸ h
  · simp [if_neg h]

/-- `AddInst` keeps the block map duplicate-free. -/
theorem addInst_nodup (f : Func) (a : Nat) (h : f.blockMap.Nodup) :
    (f.AddInst a).blockMap.Nodup := by
  unfold Func.AddInst
  by_cases ha : a ∈ f.blockMap
  · simpa [if_pos ha] using h
  · simp only [if_neg ha]
    simpa [List.nodup_append] using ⟨h, ha⟩

/-- A sequence of `AddInst` calls keeps the map nonempty and the entry
address fixed once the first call has set it. -/
theorem addInsts_entryAddr (addrs : List Nat) (f : Func)
    (h : f.blockMap ≠ []) :
    (f.addInsts addrs).entryAddr = f.entryAddr ∧
      (f.addInsts addrs).blockMap ≠ [] := by
  induction addrs generalizing f with
  | nil => exact ⟨rfl, h⟩
  | cons a as ih =>
    have h1 := addInst_entryAddr f a h
    have h2 := addInst_blockMap_ne_nil f a
    have := ih (f.AddInst a) h2
    exact ⟨by rw [Func.addInsts, List.foldl_cons, ← Func.addInsts, this.1, h1],
           by rw [Func.addInsts, List.foldl_cons, ← Func.addInsts]; exact this.2⟩

/-- Membership after a sequence of `AddInst` calls. -/
theorem addInsts_mem (addrs : List Nat) (f : Func) (x : Nat) :
    x ∈ (f.addInsts addrs).blockMap ↔ x ∈ f.blockMap ∨ x ∈ addrs := by
  induction addrs generalizing f with
  | nil => simp [Func.addInsts]
  | cons a as ih =>
    rw [Func.addInsts, List.foldl_cons, ← Func.addInsts, ih, addInst_mem]
    constructor
    · rintro (⟨hx | hx⟩ | hx)
      · exact Or.inl hx
      · exact Or.inr (hx ▸ List.mem_cons_self a as)
      · exact Or.inr (List.mem_cons_of_mem a hx)
    · rintro (hx | hx)
      · exact Or.inl (Or.inl hx)
      · rcases List.mem_cons.mp hx with hx | hx
        · exact Or.inl (Or.inr hx)
        · exact Or.inr hx

/-- Nodup after a sequence of `AddInst` calls. -/
theorem addInsts_nodup (addrs : List Nat) (f : Func)
    (h : f.blockMap.Nodup) : (f.addInsts addrs).blockMap.Nodup := by
  induction addrs generalizing f with
  | nil => exact h
  | cons a as ih =>
    rw [Func.addInsts, List.foldl_cons, ← Func.addInsts]
    exact ih (f.AddInst a) (addInst_nodup f a h)

/-- C8: the address of the first `AddInstruction` call becomes the recorded
entry target and later calls never change it; a block is created for an
address only on its first use (an `AddInst` for an existing address leaves
the map unchanged, a new address is appended); and `Lift()` connects the
synthetic ENTRY block by an unconditional branch to the block at the
recorded entry address. -/
theorem addInst_entry_and_blocks (a : Nat) (rest : List Nat)
    (nextRip : Nat → Value) (cfg : Config) (verifyFails : Bool) :
    (Func.init.addInsts (a :: rest)).entryAddr = a ∧
    (Func.init.addInsts (a :: rest)).blockMap.Nodup ∧
    (∀ x, x ∈ (Func.init.addInsts (a :: rest)).blockMap ↔ x ∈ a :: rest) ∧
    (∀ g : Func, ∀ b, b ∈ g.blockMap → (g.AddInst b).blockMap = g.blockMap) ∧
    (∀ g : Func, ∀ b, b ∉ g.blockMap →
      (g.AddInst b).blockMap = g.blockMap ++ [b]) ∧
    (∀ g : Func, ∀ b, g.blockMap ≠ [] →
      (g.AddInst b).entryAddr = g.entryAddr) ∧
    (∀ res, (Func.init.addInsts (a :: rest)).Lift nextRip cfg verifyFails =
        some res → res.entryBranch = .uncond (.block a)) := by
  have hstep : Func.init.addInsts (a :: rest) =
      (Func.init.AddInst a).addInsts rest := by
    rw [Func.addInsts, List.foldl_cons, ← Func.addInsts]
  have hfirst : (Func.init.AddInst a).entryAddr = a := by
    simp [Func.AddInst, Func.init]
  have hne : (Func.init.AddInst a).blockMap ≠ [] :=
    addInst_blockMap_ne_nil Func.init a
  have hentry : (Func.init.addInsts (a :: rest)).entryAddr = a := by
    rw [hstep, (addInsts_entryAddr rest (Func.init.AddInst a) hne).1, hfirst]
  refine ⟨hentry, ?_, ?_, ?_, ?_, ?_, ?_⟩
  · exact addInsts_nodup (a :: rest) Func.init (by simp [Func.init])
  · intro x
    rw [addInsts_mem]
    simp [Func.init]
  · intro g b hb
    simp [Func.AddInst, hb]
  · intro g b hb
    simp [Func.AddInst, hb]
  · intro g b hb
    exact addInst_entryAddr g b hb
  · intro res hres
    unfold Func.Lift at hres
    by_cases hnil : (Func.init.addInsts (a :: rest)).blockMap = []
    · rw [if_pos hnil] at hres
      exact absurd hres (by simp)
    · rw [if_neg hnil] at hres
      by_cases hv : cfg.verify_ir && verifyFails
      · rw [if_pos hv] at hres
        exact absurd hres (by simp)
      · rw [if_neg hv] at hres
        have := Option.some.inj hres
        rw [← this, hentry]

/-- C7: during `Lift()`, every non-entry non-exit block whose symbolic
next-instruction-pointer value is a select is stitched with a conditional
branch on the select's condition resolving both addresses independently;
every other block is stitched with a single unconditional branch to the
resolution of that value. -/
theorem lift_stitch_cases (f : Func) (nextRip : Nat → Value) (cfg : Config)
    (verifyFails : Bool) (res : LiftResult)
    (hres : f.Lift nextRip cfg verifyFails = some res)
    (a : Nat) (ha : a ∈ f.blockMap) :
    (∀ c t fv, nextRip a = .select c t fv →
      (a, Branch.cond c (resolveAddr f.blockMap t) (resolveAddr f.blockMap fv))
        ∈ res.blockBranches) ∧
    ((∀ c t fv, nextRip a ≠ .select c t fv) →
      (a, Branch.uncond (resolveAddr f.blockMap (nextRip a)))
        ∈ res.blockBranches) := by
  have hbb : res.blockBranches =
      f.blockMap.map fun x => (x, stitchBranch f.blockMap (nextRip x)) := by
    unfold Func.Lift at hres
    by_cases hnil : f.blockMap = []
    · rw [if_pos hnil] at hres
      exact absurd hres (by simp)
    · rw [if_neg hnil] at hres
      by_cases hv : cfg.verify_ir && verifyFails
      · rw [if_pos hv] at hres
        exact absurd hres (by simp)
      · rw [if_neg hv] at hres
        rw [← Option.some.inj hres]
  constructor
  · intro c t fv hsel
    rw [hbb]
    have : stitchBranch f.blockMap (nextRip a) =
        Branch.cond c (resolveAddr f.blockMap t) (resolveAddr f.blockMap fv) := by
      rw [hsel]
      rfl
    rw [← this]
    exact List.mem_map_of_mem _ ha
  · intro hnsel
    rw [hbb]
    have : stitchBranch f.blockMap (nextRip a) =
        Branch.uncond (resolveAddr f.blockMap (nextRip a)) := by
      cases hv : nextRip a with
      | select c t fv => exact absurd hv (hnsel c t fv)
      | constInt w b => rfl
      | func i => rfl
      | arg i => rfl
      | other i => rfl
    rw [← this]
    exact List.mem_map_of_mem _ ha

/-- A concrete two-block function for exercising the stitching theorem: a
conditional branch at address 4096 targeting 4112 and an unknown value, and
a literal back-edge at 4112. -/
def sampleNextRip : Nat → Value := fun a =>
  if a = 4096 then .select (.other 7) (.constInt 64 4112) (.other 3)
  else .constInt 64 4096

/-- The `Func` built by adding instructions at 4096 and 4112. -/
def sampleFunc : Func := Func.init.addInsts [4096, 4112]

/-- The lift result of `sampleFunc` under `sampleNextRip`. -/
def sampleLiftResult : LiftResult :=
  { entryBranch := .uncond (.block 4096),
    blockBranches :=
      [(4096, .cond (.other 7) (.block 4112) .exit),
       (4112, .uncond (.block 4096))] }

/-- Witness for `lift_stitch_cases` at the concrete function `sampleFunc`:
block 4096 carries a select and is stitched with the corresponding
conditional branch. -/
theorem lift_stitch_cases_witness :
    (∀ c t fv, sampleNextRip 4096 = .select c t fv →
      (4096, Branch.cond c (resolveAddr sampleFunc.blockMap t)
        (resolveAddr sampleFunc.blockMap fv))
        ∈ sampleLiftResult.blockBranches) ∧
    ((∀ c t fv, sampleNextRip 4096 ≠ .select c t fv) →
      (4096, Branch.uncond (resolveAddr sampleFunc.blockMap (sampleNextRip 4096)))
        ∈ sampleLiftResult.blockBranches) :=
  lift_stitch_cases sampleFunc sampleNextRip ⟨false⟩ false sampleLiftResult
    (by decide) 4096 (by decide)

/-- The register classes `callconv.cc` mentions (`LL_RT_IP`, `LL_RT_GP64`)
plus the remaining classes of the register file (flags, vector). -/
inductive RegType where
  | ip
  | gp64
  | flag
  | vec
deriving DecidableEq, Repr

/-- `LLReg`: a (register-class, index) value pair. -/
structure LLReg where
  rt : RegType
  index : Nat
deriving DecidableEq, Repr

/-- A facet identifier (a typed view over a register); its internal
structure is irrelevant to callconv.cc, which only passes it through. -/
abbrev Facet := Nat

/-- The HHVM return-slot table of `CallConv::Pack` (callconv.cc lines
98-125): the `ins_idx` each register's final value is inserted at in the
native return aggregate, `-1` for registers that fall back to the state
pointer. -/
def hhvmRetIdx (reg : LLReg) : Int :=
  if reg = ⟨.ip, 0⟩ then 0
  else if reg = ⟨.gp64, 0⟩ then 8
  else if reg = ⟨.gp64, 1⟩ then 5
  else if reg = ⟨.gp64, 2⟩ then 4
  else if reg = ⟨.gp64, 3⟩ then 1
  else if reg = ⟨.gp64, 4⟩ then 13
  else if reg = ⟨.gp64, 5⟩ then 11
  else if reg = ⟨.gp64, 6⟩ then 3
  else if reg = ⟨.gp64, 7⟩ then 2
  else if reg = ⟨.gp64, 8⟩ then 6
  else if reg = ⟨.gp64, 9⟩ then 7
  else if reg = ⟨.gp64, 10⟩ then 9
  else if reg = ⟨.gp64, 11⟩ then 10
  else -1

/-- The HHVM argument-index table of `CallConv::Unpack` (callconv.cc lines
162-187): the `arg_idx` each register's initial value is read from on
entry, `-1` for registers that fall back to the state pointer. -/
def hhvmArgIdx (reg : LLReg) : Int :=
  if reg = ⟨.gp64, 0⟩ then 10
  else if reg = ⟨.gp64, 1⟩ then 7
  else if reg = ⟨.gp64, 2⟩ then 6
  else if reg = ⟨.gp64, 3⟩ then 2
  else if reg = ⟨.gp64, 4⟩ then 3
  else if reg = ⟨.gp64, 5⟩ then 13
  else if reg = ⟨.gp64, 6⟩ then 5
  else if reg = ⟨.gp64, 7⟩ then 4
  else if reg = ⟨.gp64, 8⟩ then 8
  else if reg = ⟨.gp64, 9⟩ then 9
  else if reg = ⟨.gp64, 10⟩ then 11
  else if reg = ⟨.gp64, 11⟩ then 12
  else -1

/-- The registers with a return-slot index in the HHVM Pack table. -/
def hhvmRetRegs : List LLReg :=
  [⟨.ip, 0⟩, ⟨.gp64, 0⟩, ⟨.gp64, 1⟩, ⟨.gp64, 2⟩, ⟨.gp64, 3⟩, ⟨.gp64, 4⟩,
   ⟨.gp64, 5⟩, ⟨.gp64, 6⟩, ⟨.gp64, 7⟩, ⟨.gp64, 8⟩, ⟨.gp64, 9⟩,
   ⟨.gp64, 10⟩, ⟨.gp64, 11⟩]

/-- The registers with an argument index in the HHVM Unpack table. -/
def hhvmArgRegs : List LLReg :=
  [⟨.gp64, 0⟩, ⟨.gp64, 1⟩, ⟨.gp64, 2⟩, ⟨.gp64, 3⟩, ⟨.gp64, 4⟩,
   ⟨.gp64, 5⟩, ⟨.gp64, 6⟩, ⟨.gp64, 7⟩, ⟨.gp64, 8⟩, ⟨.gp64, 9⟩,
   ⟨.gp64, 10⟩, ⟨.gp64, 11⟩]

/-- A register outside the Pack table's thirteen listed registers takes the
default return-slot index `-1`. -/
theorem hhvmRetIdx_default (r : LLReg) (h : r ∉ hhvmRetRegs) :
    hhvmRetIdx r = -1 := by
  simp only [hhvmRetRegs, List.mem_cons, List.not_mem_nil, or_false,
    not_or] at h
  obtain ⟨n1, n2, n3, n4, n5, n6, n7, n8, n9, n10, n11, n12, n13⟩ := h
  unfold hhvmRetIdx
  rw [if_neg n1, if_neg n2, if_neg n3, if_neg n4, if_neg n5, if_neg n6,
    if_neg n7, if_neg n8, if_neg n9, if_neg n10, if_neg n11, if_neg n12,
    if_neg n13]

/-- A register with a nonnegative return-slot index is one of the thirteen
listed in the Pack table. -/
theorem hhvmRetIdx_support (r : LLReg) (h : 0 ≤ hhvmRetIdx r) :
    r ∈ hhvmRetRegs := by
  by_contra hmem
  rw [hhvmRetIdx_default r hmem] at h
  exact absurd h (by decide)

/-- A register outside the Unpack table's twelve listed registers takes the
default argument index `-1`. -/
theorem hhvmArgIdx_default (r : LLReg) (h : r ∉ hhvmArgRegs) :
    hhvmArgIdx r = -1 := by
  simp only [hhvmArgRegs, List.mem_cons, List.not_mem_nil, or_false,
    not_or] at h
  obtain ⟨n1, n2, n3, n4, n5, n6, n7, n8, n9, n10, n11, n12⟩ := h
  unfold hhvmArgIdx
  rw [if_neg n1, if_neg n2, if_neg n3, if_neg n4, if_neg n5, if_neg n6,
    if_neg n7, if_neg n8, if_neg n9, if_neg n10, if_neg n11, if_neg n12]

/-- A register with a nonnegative argument index is one of the twelve listed
in the Unpack table. -/
theorem hhvmArgIdx_support (r : LLReg) (h : 0 ≤ hhvmArgIdx r) :
    r ∈ hhvmArgRegs := by
  by_contra hmem
  rw [hhvmArgIdx_default r hmem] at h
  exact absurd h (by decide)

/-- C3, counterexample: it is not the case that every register listed in
either HHVM table has both an entry argument index and an exit return-slot
index — the instruction pointer `LLReg(LL_RT_IP, 0)` has return slot 0 in
the Pack table but no entry in the Unpack argument table. -/
theorem hhvm_table_claim_false :
    ¬ (∀ r : LLReg, (0 ≤ hhvmRetIdx r ∨ 0 ≤ hhvmArgIdx r) →
        0 ≤ hhvmRetIdx r ∧ 0 ≤ hhvmArgIdx r) := by
  intro h
  have hip := h ⟨.ip, 0⟩ (Or.inl (by decide))
  exact absurd hip.2 (by decide)

/-- C3, amended: each native argument index and each native return-slot
index is assigned to at most one register; every register listed in the
entry (Unpack) table also has an exit return-slot index; but the
instruction-pointer register is listed only in the exit (Pack) table, with
return slot 0 and no entry argument index — it is the one register with an
exit slot and no entry slot. -/
theorem hhvm_table_props :
    (∀ r1 r2 : LLReg, 0 ≤ hhvmRetIdx r1 → hhvmRetIdx r1 = hhvmRetIdx r2 →
      r1 = r2) ∧
    (∀ r1 r2 : LLReg, 0 ≤ hhvmArgIdx r1 → hhvmArgIdx r1 = hhvmArgIdx r2 →
      r1 = r2) ∧
    (∀ r : LLReg, 0 ≤ hhvmArgIdx r → 0 ≤ hhvmRetIdx r) ∧
    (hhvmRetIdx ⟨.ip, 0⟩ = 0 ∧ hhvmArgIdx ⟨.ip, 0⟩ = -1) ∧
    (∀ r : LLReg, r ≠ ⟨.ip, 0⟩ → 0 ≤ hhvmRetIdx r → 0 ≤ hhvmArgIdx r) := by
  have hretinj : ∀ r1 ∈ hhvmRetRegs, ∀ r2 ∈ hhvmRetRegs,
      hhvmRetIdx r1 = hhvmRetIdx r2 → r1 = r2 := by decide
  have harginj : ∀ r1 ∈ hhvmArgRegs, ∀ r2 ∈ hhvmArgRegs,
      hhvmArgIdx r1 = hhvmArgIdx r2 → r1 = r2 := by decide
  have hargret : ∀ r ∈ hhvmArgRegs, 0 ≤ hhvmRetIdx r := by decide
  have hretarg : ∀ r ∈ hhvmRetRegs, r = ⟨.ip, 0⟩ ∨ 0 ≤ hhvmArgIdx r := by
    decide
  refine ⟨?_, ?_, ?_, ⟨by decide, by decide⟩, ?_⟩
  · intro r1 r2 h1 heq
    exact hretinj r1 (hhvmRetIdx_support r1 h1) r2
      (hhvmRetIdx_support r2 (heq ▸ h1)) heq
  · intro r1 r2 h1 heq
    exact harginj r1 (hhvmArgIdx_support r1 h1) r2
      (hhvmArgIdx_support r2 (heq ▸ h1)) heq
  · intro r h
    exact hargret r (hhvmArgIdx_support r h)
  · intro r hne h
    rcases hretarg r (hhvmRetIdx_support r h) with heq | hle
    · exact absurd heq hne
    · exact hle

/-- The calling-convention variants.  `SPTR` and `HHVM` are the two cases of
callconv.cc's switches; each switch also has a `default` arm, so the enum
carries at least one further value.  Modelled from the spec: callconv.h is
not in src/; the spec names exactly the two supported variants, so the
remaining enum value is modelled as `INVALID`. -/
inductive CallConv where
  | INVALID
  | SPTR
  | HHVM
deriving DecidableEq, Repr

/-- The LLVM types `CallConv::FnType` builds. -/
inductive LLVMType where
  | void
  | i8ptr
  | i64
  | structTy (fields : List LLVMType)
  | fnTy (ret : LLVMType) (params : List LLVMType)

/-- `CallConv::FnType` (callconv.cc lines 35-53): `void(i8*)` for SPTR, the
fourteen-slot i64 struct returned from fourteen arguments for HHVM, and a
null function type (`none`) for any other value via the `default` arm. -/
def CallConv.FnType : CallConv → Option LLVMType
  | .SPTR => some (.fnTy .void [.i8ptr])
  | .HHVM => some (.fnTy (.structTy (List.replicate 14 .i64))
      (.i64 :: .i8ptr :: List.replicate 12 .i64))
  | _ => none

/-- The native calling-convention tags `CallConv::FnCallConv` selects. -/
inductive NativeConv where
  | C
  | HHVM
deriving DecidableEq, Repr

/-- `CallConv::FnCallConv` (callconv.cc lines 55-61): the C convention for
SPTR and via the `default` arm, `llvm::CallingConv::HHVM` for HHVM. -/
def CallConv.FnCallConv : CallConv → NativeConv
  | .SPTR => .C
  | .HHVM => .HHVM
  | _ => .C

/-- `CallConv::CpuStructParamIdx` (callconv.cc lines 63-69): parameter 0 for
SPTR and via the `default` arm, parameter 1 for HHVM. -/
def CallConv.CpuStructParamIdx : CallConv → Nat
  | .SPTR => 0
  | .HHVM => 1
  | _ => 0

/-- C10: for the calling-convention value other than the two supported
variants, `FnType` returns a null function type rather than aborting, while
`FnCallConv` returns the default C tag and `CpuStructParamIdx` returns
parameter index 0 — an unrecognized convention is silently given defaults,
never rejected as a fatal contract violation. -/
theorem unknown_conv_defaults :
    CallConv.FnType .INVALID = none ∧
    CallConv.FnCallConv .INVALID = .C ∧
    CallConv.CpuStructParamIdx .INVALID = 0 ∧
    (∀ c : CallConv, c ≠ .SPTR → c ≠ .HHVM →
      CallConv.FnType c = none ∧ CallConv.FnCallConv c = .C ∧
        CallConv.CpuStructParamIdx c = 0) := by
  refine ⟨rfl, rfl, rfl, ?_⟩
  intro c h1 h2
  cases c with
  | INVALID => exact ⟨rfl, rfl, rfl⟩
  | SPTR => exact absurd rfl h1
  | HHVM => exact absurd rfl h2

/-- One entry of the `cpu_struct_entries` table (callconv.cc lines 71-75): a
byte offset into the CPU state structure, a register and a facet.  The
table's contents come from the generated cpustruct-private.inc, which is
not in src/, so Pack and Unpack are parameterized over the table. -/
structure CpuStructEntry where
  offset : Nat
  reg : LLReg
  facet : Facet
deriving DecidableEq, Repr

/-- The per-block register file as Pack and Unpack see it.  Modelled from
the spec: regfile.cc is not in src/; per spec 4.1, `SetReg` records a value
as current for its (register, facet) and `GetReg` returns the current
value. -/
def RegFile := LLReg → Facet → Value

/-- `RegFile::SetReg` on one (register, facet) key. -/
def setReg (rf : RegFile) (r : LLReg) (f : Facet) (v : Value) : RegFile :=
  fun r' f' => if r' = r ∧ f' = f then v else rf r' f'

/-- `RegFile::GetReg`. -/
def getReg (rf : RegFile) (r : LLReg) (f : Facet) : Value := rf r f

/-- One IR side effect emitted by Pack or Unpack: a store to a byte offset
of the state structure, an insertion into the native return aggregate, a
load from a byte offset, or a read of a native argument slot. -/
inductive Event where
  | store (offset : Nat) (value : Value)
  | insertValue (slot : Nat) (value : Value)
  | load (offset : Nat)
  | readArg (idx : Nat)
deriving DecidableEq, Repr

/-- The one event `CallConv::Pack` emits for a table entry: under HHVM a
table-listed register's value is inserted into the return aggregate at its
`ins_idx`, every other entry is stored through the state pointer at the
entry's byte offset. -/
def packEvent (conv : CallConv) (rf : RegFile) (e : CpuStructEntry) : Event :=
  if conv = .HHVM ∧ 0 ≤ hhvmRetIdx e.reg then
    .insertValue (hhvmRetIdx e.reg).toNat (getReg rf e.reg e.facet)
  else
    .store e.offset (getReg rf e.reg e.facet)

/-- The loop of `CallConv::Pack` (callconv.cc lines 90-143) over the entry
table, accumulating the emitted events and the (slot, value) insertions
composing the native return aggregate. -/
def packLoop (conv : CallConv) (rf : RegFile) :
    List CpuStructEntry → List Event × List (Nat × Value) →
      List Event × List (Nat × Value)
  | [], acc => acc
  | e :: es, acc =>
    if conv = .HHVM ∧ 0 ≤ hhvmRetIdx e.reg then
      packLoop conv rf es
        (acc.1 ++ [.insertValue (hhvmRetIdx e.reg).toNat (getReg rf e.reg e.facet)],
         acc.2 ++ [((hhvmRetIdx e.reg).toNat, getReg rf e.reg e.facet)])
    else
      packLoop conv rf es (acc.1 ++ [.store e.offset (getReg rf e.reg e.facet)], acc.2)

/-- `CallConv::Pack` (callconv.cc lines 77-146).  Under HHVM the return
aggregate is seeded from `fn->getReturnType()`, where `fn` is the
`dyn_cast<llvm::Function>` of `val`; when `val` is not a function that
pointer is null and dereferenced, modelled as `none`.  Otherwise the result
is the emitted event sequence and the return-aggregate insertions. -/
def CallConv.Pack (conv : CallConv) (table : List CpuStructEntry)
    (rf : RegFile) (val : Value) : Option (List Event × List (Nat × Value)) :=
  if conv = .HHVM ∧ val.asFunc = none then none
  else some (packLoop conv rf table ([], []))

/-- The one event `CallConv::Unpack` emits for a table entry: under HHVM a
table-listed register's initial value is read from its native argument
slot, every other entry is loaded through the state pointer at the entry's
byte offset. -/
def unpackEvent (conv : CallConv) (e : CpuStructEntry) : Event :=
  if conv = .HHVM ∧ 0 ≤ hhvmArgIdx e.reg then
    .readArg (hhvmArgIdx e.reg).toNat
  else
    .load e.offset

/-- The loop of `CallConv::Unpack` (callconv.cc lines 157-203) over the
entry table: each entry's value — a native argument under HHVM for
table-listed registers, otherwise the value `mem` holds at the entry's byte
offset — is written to the register file, and the corresponding event
recorded. -/
def unpackLoop (conv : CallConv) (mem : Nat → Value) :
    List CpuStructEntry → RegFile × List Event → RegFile × List Event
  | [], acc => acc
  | e :: es, acc =>
    if conv = .HHVM ∧ 0 ≤ hhvmArgIdx e.reg then
      unpackLoop conv mem es
        (setReg acc.1 e.reg e.facet (.arg (hhvmArgIdx e.reg).toNat),
         acc.2 ++ [.readArg (hhvmArgIdx e.reg).toNat])
    else
      unpackLoop conv mem es
        (setReg acc.1 e.reg e.facet (mem e.offset), acc.2 ++ [.load e.offset])

/-- `CallConv::Unpack` (callconv.cc lines 148-204).  Under HHVM the
argument reads dereference `fn`, the `dyn_cast<llvm::Function>` of `val`;
when `val` is not a function and the table holds a register with an
argument index, that null pointer is dereferenced, modelled as `none`. -/
def CallConv.Unpack (conv : CallConv) (table : List CpuStructEntry)
    (mem : Nat → Value) (rf : RegFile) (val : Value) :
    Option (RegFile × List Event) :=
  if conv = .HHVM ∧ (table.any fun e => decide (0 ≤ hhvmArgIdx e.reg)) = true ∧
      val.asFunc = none then none
  else some (unpackLoop conv mem table (rf, []))

/-- Map respects member-wise equal functions. -/
theorem listMapCongr {α β : Type} (l : List α) (f g : α → β)
    (h : ∀ a ∈ l, f a = g a) : l.map f = l.map g := by
  induction l with
  | nil => rfl
  | cons a as ih =>
    simp only [List.map_cons]
    rw [h a (List.mem_cons_self a as),
      ih fun x hx => h x (List.mem_cons_of_mem a hx)]

/-- The events `packLoop` accumulates are one `packEvent` per table entry,
appended in table order. -/
theorem packLoop_fst (conv : CallConv) (rf : RegFile)
    (es : List CpuStructEntry) :
    ∀ acc, (packLoop conv rf es acc).1 = acc.1 ++ es.map (packEvent conv rf) := by
  induction es with
  | nil => intro acc; simp [packLoop]
  | cons e es ih =>
    intro acc
    unfold packLoop
    by_cases h : conv = .HHVM ∧ 0 ≤ hhvmRetIdx e.reg
    · rw [if_pos h, ih]
      simp [packEvent, if_pos h]
    · rw [if_neg h, ih]
      simp [packEvent, if_neg h]

/-- Outside HHVM no entry reaches the return aggregate. -/
theorem packLoop_snd_not_hhvm (conv : CallConv) (rf : RegFile)
    (hc : conv ≠ .HHVM) (es : List CpuStructEntry) :
    ∀ acc, (packLoop conv rf es acc).2 = acc.2 := by
  induction es with
  | nil => intro acc; rfl
  | cons e es ih =>
    intro acc
    unfold packLoop
    rw [if_neg (by intro hcontra; exact hc hcontra.1), ih]

/-- The events `unpackLoop` accumulates are one `unpackEvent` per table
entry, appended in table order. -/
theorem unpackLoop_snd (conv : CallConv) (mem : Nat → Value)
    (es : List CpuStructEntry) :
    ∀ acc, (unpackLoop conv mem es acc).2 = acc.2 ++ es.map (unpackEvent conv) := by
  induction es with
  | nil => intro acc; simp [unpackLoop]
  | cons e es ih =>
    intro acc
    unfold unpackLoop
    by_cases h : conv = .HHVM ∧ 0 ≤ hhvmArgIdx e.reg
    · rw [if_pos h, ih]
      simp [unpackEvent, if_pos h]
    · rw [if_neg h, ih]
      simp [unpackEvent, if_neg h]

/-- `unpackLoop` leaves (register, facet) keys that the processed entries do
not mention untouched. -/
theorem unpackLoop_fst_frame (conv : CallConv) (mem : Nat → Value)
    (es : List CpuStructEntry) :
    ∀ (acc : RegFile × List Event) (r : LLReg) (f : Facet),
      (∀ e ∈ es, ¬(e.reg = r ∧ e.facet = f)) →
      (unpackLoop conv mem es acc).1 r f = acc.1 r f := by
  induction es with
  | nil => intro acc r f _; rfl
  | cons e es ih =>
    intro acc r f hkeys
    have hne : ¬(r = e.reg ∧ f = e.facet) := by
      intro hcontra
      exact hkeys e (List.mem_cons_self e es) ⟨hcontra.1.symm, hcontra.2.symm⟩
    have htail : ∀ x ∈ es, ¬(x.reg = r ∧ x.facet = f) :=
      fun x hx => hkeys x (List.mem_cons_of_mem e hx)
    unfold unpackLoop
    by_cases h : conv = .HHVM ∧ 0 ≤ hhvmArgIdx e.reg
    · rw [if_pos h, ih _ r f htail]
      simp [setReg, hne]
    · rw [if_neg h, ih _ r f htail]
      simp [setReg, hne]

/-- The value `unpackLoop` writes for a table entry: the entry's native
argument under HHVM for a table-listed register, otherwise the state
structure's value at the entry's byte offset. -/
def unpackValue (conv : CallConv) (mem : Nat → Value)
    (e : CpuStructEntry) : Value :=
  if conv = .HHVM ∧ 0 ≤ hhvmArgIdx e.reg then .arg (hhvmArgIdx e.reg).toNat
  else mem e.offset

/-- With duplicate-free (register, facet) keys, the register file
`unpackLoop` produces holds `unpackValue` at every processed entry's key. -/
theorem unpackLoop_fst_lookup (conv : CallConv) (mem : Nat → Value)
    (es : List CpuStructEntry) :
    ∀ acc, (es.map fun e => (e.reg, e.facet)).Nodup →
      ∀ e ∈ es, (unpackLoop conv mem es acc).1 e.reg e.facet =
        unpackValue conv mem e := by
  induction es with
  | nil => intro acc _ e he; exact absurd he (List.not_mem_nil e)
  | cons e0 es ih =>
    intro acc hnodup e he
    have hnd := List.nodup_cons.mp hnodup
    rcases List.mem_cons.mp he with rfl | hmem
    · have hframe : ∀ x ∈ es, ¬(x.reg = e.reg ∧ x.facet = e.facet) := by
        intro x hx hcontra
        apply hnd.1
        show ((e.reg, e.facet) : LLReg × Facet) ∈ es.map fun y => (y.reg, y.facet)
        rw [← hcontra.1, ← hcontra.2]
        exact List.mem_map_of_mem _ hx
      unfold unpackLoop
      by_cases h : conv = .HHVM ∧ 0 ≤ hhvmArgIdx e.reg
      · rw [if_pos h, unpackLoop_fst_frame conv mem es _ e.reg e.facet hframe]
        simp [setReg, unpackValue, if_pos h]
      · rw [if_neg h, unpackLoop_fst_frame conv mem es _ e.reg e.facet hframe]
        simp [setReg, unpackValue, if_neg h]
    · unfold unpackLoop
      by_cases h : conv = .HHVM ∧ 0 ≤ hhvmArgIdx e0.reg
      · rw [if_pos h]
        exact ih _ hnd.2 e hmem
      · rw [if_neg h]
        exact ih _ hnd.2 e hmem

/-- C6: for every successful call to Pack and to Unpack under either
convention, the emitted side-effect sequence holds exactly one event per
(register, facet) entry of the fixed offset table, in the table's canonical
order — `table.map` of a per-entry event function — so Pack and Unpack
visit the entries in the same order and two runs on equal inputs emit equal
sequences (both are pure functions of their arguments). -/
theorem pack_unpack_canonical_order :
    (∀ (conv : CallConv) (table : List CpuStructEntry) (rf : RegFile)
        (val : Value) out, CallConv.Pack conv table rf val = some out →
      out.1 = table.map (packEvent conv rf) ∧ out.1.length = table.length) ∧
    (∀ (conv : CallConv) (table : List CpuStructEntry) (mem : Nat → Value)
        (rf : RegFile) (val : Value) out,
      CallConv.Unpack conv table mem rf val = some out →
      out.2 = table.map (unpackEvent conv) ∧ out.2.length = table.length) := by
  constructor
  · intro conv table rf val out hout
    unfold CallConv.Pack at hout
    by_cases h : conv = .HHVM ∧ val.asFunc = none
    · rw [if_pos h] at hout
      exact absurd hout (by simp)
    · rw [if_neg h] at hout
      have := Option.some.inj hout
      have hfst : out.1 = table.map (packEvent conv rf) := by
        rw [← this, packLoop_fst]
        simp
      exact ⟨hfst, by rw [hfst, List.length_map]⟩
  · intro conv table mem rf val out hout
    unfold CallConv.Unpack at hout
    by_cases h : conv = .HHVM ∧
        (table.any fun e => decide (0 ≤ hhvmArgIdx e.reg)) = true ∧
        val.asFunc = none
    · rw [if_pos h] at hout
      exact absurd hout (by simp)
    · rw [if_neg h] at hout
      have := Option.some.inj hout
      have hsnd : out.2 = table.map (unpackEvent conv) := by
        rw [← this, unpackLoop_snd]
        simp
      exact ⟨hsnd, by rw [hsnd, List.length_map]⟩

/-- C9: under the HHVM convention, Pack and Unpack are only defined when
their value argument is the lifted native function itself.  For any
non-function value the internal function pointer stays null and is
dereferenced — in Pack to build the return aggregate, in Unpack to read
argument slots whenever the table lists a register with an argument index —
while a function value makes both total. -/
theorem hhvm_pack_unpack_need_function :
    (∀ (table : List CpuStructEntry) (rf : RegFile) (v : Value),
      v.asFunc = none → CallConv.Pack .HHVM table rf v = none) ∧
    (∀ (table : List CpuStructEntry) (mem : Nat → Value) (rf : RegFile)
        (v : Value), (∃ e ∈ table, 0 ≤ hhvmArgIdx e.reg) → v.asFunc = none →
      CallConv.Unpack .HHVM table mem rf v = none) ∧
    (∀ (table : List CpuStructEntry) (rf : RegFile) (i : Nat),
      (CallConv.Pack .HHVM table rf (.func i)).isSome = true) ∧
    (∀ (table : List CpuStructEntry) (mem : Nat → Value) (rf : RegFile)
        (i : Nat),
      (CallConv.Unpack .HHVM table mem rf (.func i)).isSome = true) := by
  refine ⟨?_, ?_, ?_, ?_⟩
  · intro table rf v hv
    unfold CallConv.Pack
    rw [if_pos ⟨rfl, hv⟩]
  · intro table mem rf v hex hv
    unfold CallConv.Unpack
    have hany : (table.any fun e => decide (0 ≤ hhvmArgIdx e.reg)) = true := by
      obtain ⟨e, he, hle⟩ := hex
      exact List.any_eq_true.mpr ⟨e, he, by simpa using hle⟩
    rw [if_pos ⟨rfl, hany, hv⟩]
  · intro table rf i
    unfold CallConv.Pack
    rw [if_neg (by simp [Value.asFunc])]
    rfl
  · intro table mem rf i
    unfold CallConv.Unpack
    rw [if_neg (by simp [Value.asFunc])]
    rfl

/-- C4: for the state-pointer convention, running Unpack and then
immediately Pack with no intervening register writes loads one value per
table entry from that entry's byte offset and stores back exactly those
values at the same offsets — pack after unpack is the identity on the state
structure's mapped bytes (stated for a table whose (register, facet) keys
are duplicate-free, as each key holds one fixed offset). -/
theorem sptr_pack_after_unpack (table : List CpuStructEntry)
    (mem : Nat → Value) (rf : RegFile) (val : Value)
    (hkeys : (table.map fun e => (e.reg, e.facet)).Nodup) :
    ∃ (rf2 : RegFile) (ev : List Event),
      CallConv.Unpack .SPTR table mem rf val = some (rf2, ev) ∧
      ev = table.map (fun e => Event.load e.offset) ∧
      CallConv.Pack .SPTR table rf2 val =
        some (table.map fun e => Event.store e.offset (mem e.offset), []) := by
  refine ⟨(unpackLoop .SPTR mem table (rf, [])).1,
    (unpackLoop .SPTR mem table (rf, [])).2, ?_, ?_, ?_⟩
  · unfold CallConv.Unpack
    rw [if_neg (by simp)]
  · rw [unpackLoop_snd]
    have hev : ∀ e : CpuStructEntry, unpackEvent .SPTR e = .load e.offset :=
      fun e => by simp [unpackEvent]
    rw [listMapCongr table _ _ fun e _ => hev e]
    simp
  · unfold CallConv.Pack
    rw [if_neg (by simp)]
    have hrf : ∀ e ∈ table,
        (unpackLoop .SPTR mem table (rf, [])).1 e.reg e.facet = mem e.offset := by
      intro e he
      rw [unpackLoop_fst_lookup .SPTR mem table (rf, []) hkeys e he]
      simp [unpackValue]
    have hfst := packLoop_fst .SPTR (unpackLoop .SPTR mem table (rf, [])).1
      table ([], [])
    have hsnd := packLoop_snd_not_hhvm .SPTR
      (unpackLoop .SPTR mem table (rf, [])).1 (by simp) table ([], [])
    have hpair : packLoop .SPTR (unpackLoop .SPTR mem table (rf, [])).1
        table ([], []) =
        (table.map fun e => Event.store e.offset (mem e.offset), []) := by
      apply Prod.ext
      · rw [hfst]
        simp only [List.nil_append]
        apply listMapCongr
        intro e he
        have : packEvent .SPTR (unpackLoop .SPTR mem table (rf, [])).1 e =
            .store e.offset
              ((unpackLoop .SPTR mem table (rf, [])).1 e.reg e.facet) := by
          simp [packEvent, getReg]
        rw [this, hrf e he]
      · rw [hsnd]
    rw [hpair]

/-- Modelled from the spec: the generated cpustruct-private.inc table is not
in src/; this sample follows the register-state layout of spec section 6
(instruction pointer at offset 0, general-purpose registers from offset 8,
flag bytes from offset 136, vector registers from offset 144). -/
def sampleTable : List CpuStructEntry :=
  [⟨0, ⟨.ip, 0⟩, 64⟩, ⟨8, ⟨.gp64, 0⟩, 64⟩, ⟨16, ⟨.gp64, 1⟩, 64⟩,
   ⟨136, ⟨.flag, 0⟩, 8⟩, ⟨144, ⟨.vec, 0⟩, 128⟩]

/-- A sample state-structure content: the value at each byte offset. -/
def sampleMem : Nat → Value := fun off => .other off

/-- A sample register file. -/
def sampleRegFile : RegFile := fun _ _ => .other 1000

/-- Witness for `sptr_pack_after_unpack` on the concrete sample table. -/
theorem sptr_pack_after_unpack_witness :
    ∃ (rf2 : RegFile) (ev : List Event),
      CallConv.Unpack .SPTR sampleTable sampleMem sampleRegFile (.other 0) =
        some (rf2, ev) ∧
      ev = sampleTable.map (fun e => Event.load e.offset) ∧
      CallConv.Pack .SPTR sampleTable rf2 (.other 0) =
        some (sampleTable.map fun e => Event.store e.offset (sampleMem e.offset),
          []) :=
  sptr_pack_after_unpack sampleTable sampleMem sampleRegFile (.other 0)
    (by decide)

/-- Modelled from the spec: `BasicBlock::FillPhis` lives in basicblock.cc,
which is not in src/.  Per spec sections 3, 4.2 and 4.3, each block carries
a set of outstanding merge placeholders; one fill attempt on a block
resolves a subset of them (a placeholder, once resolved, is never
re-opened: `fill_subset`) and FillPhis reports progress exactly when the
set shrank.  `blocks` is the list of blocks one full pass of the loop in
`Function::Lift` (function.cc lines 115-121) visits: every mapped block
followed by the EXIT block. -/
structure FillModel (β : Type) where
  blocks : List β
  fillOne : (β → Finset Nat) → β → Finset Nat
  fill_subset : ∀ p b, fillOne p b ⊆ p b

/-- Pointwise update of a placeholder state at one block. -/
def updFn {β : Type} [DecidableEq β] (p : β → Finset Nat) (b : β)
    (s : Finset Nat) : β → Finset Nat :=
  fun x => if x = b then s else p x

/-- One full pass of the fill loop over a block list: `FillPhis` is run on
each block in order and the progress bits are or-ed, as
`changed |= item.second->FillPhis()` does. -/
def runPassAux {β : Type} [DecidableEq β] (m : FillModel β) :
    List β → (β → Finset Nat) → (β → Finset Nat) × Bool
  | [], p => (p, false)
  | b :: bs, p =>
    let nb := m.fillOne p b
    let r := runPassAux m bs (updFn p b nb)
    (r.1, decide (nb ≠ p b) || r.2)

/-- One full pass over all blocks of the model. -/
def runPass {β : Type} [DecidableEq β] (m : FillModel β)
    (p : β → Finset Nat) : (β → Finset Nat) × Bool :=
  runPassAux m m.blocks p

/-- A pass never grows any block's pending-placeholder set. -/
theorem runPassAux_subset {β : Type} [DecidableEq β] (m : FillModel β)
    (bs : List β) :
    ∀ (p : β → Finset Nat) (x : β), (runPassAux m bs p).1 x ⊆ p x := by
  induction bs with
  | nil => intro p x; exact Finset.Subset.refl _
  | cons b bs ih =>
    intro p x
    have hstep : updFn p b (m.fillOne p b) x ⊆ p x := by
      unfold updFn
      by_cases hx : x = b
      · rw [if_pos hx, hx]
        exact m.fill_subset p b
      · rw [if_neg hx]
    exact subset_trans (ih (updFn p b (m.fillOne p b)) x) hstep

/-- A pass that reports no change leaves every block's set as it was. -/
theorem runPassAux_nochange {β : Type} [DecidableEq β] (m : FillModel β)
    (bs : List β) :
    ∀ (p : β → Finset Nat), (runPassAux m bs p).2 = false →
      ∀ x, (runPassAux m bs p).1 x = p x := by
  induction bs with
  | nil => intro p _ x; rfl
  | cons b bs ih =>
    intro p hfalse x
    have hparts := Bool.or_eq_false_iff.mp hfalse
    have hnb : m.fillOne p b = p b := by
      have := hparts.1
      simpa using this
    have hupd : ∀ y, updFn p b (m.fillOne p b) y = p y := by
      intro y
      unfold updFn
      by_cases hy : y = b
      · rw [if_pos hy, hnb, hy]
      · rw [if_neg hy]
    show (runPassAux m bs (updFn p b (m.fillOne p b))).1 x = p x
    rw [ih (updFn p b (m.fillOne p b)) hparts.2 x, hupd]

/-- ⊆ then ⊂ gives ⊂. -/
theorem finsetSubsetSSubset {a b c : Finset Nat} (hab : a ⊆ b)
    (hbc : b ⊂ c) : a ⊂ c := by
  rw [Finset.ssubset_def] at hbc ⊢
  exact ⟨subset_trans hab hbc.1, fun hca => hbc.2 (subset_trans hca hab)⟩

/-- ⊂ then ⊆ gives ⊂. -/
theorem finsetSSubsetSubset {a b c : Finset Nat} (hab : a ⊂ b)
    (hbc : b ⊆ c) : a ⊂ c := by
  rw [Finset.ssubset_def] at hab ⊢
  exact ⟨subset_trans hab.1 hbc, fun hca => hab.2 (subset_trans hbc hca)⟩

/-- A pass that reports a change strictly shrank some visited block's
pending set: each full pass either fills at least one placeholder or
reports no change. -/
theorem runPassAux_progress {β : Type} [DecidableEq β] (m : FillModel β)
    (bs : List β) :
    ∀ (p : β → Finset Nat), (runPassAux m bs p).2 = true →
      ∃ b0 ∈ bs, (runPassAux m bs p).1 b0 ⊂ p b0 := by
  induction bs with
  | nil => intro p h; exact absurd h (by simp [runPassAux])
  | cons b bs ih =>
    intro p htrue
    rcases Bool.or_eq_true_iff.mp htrue with hhead | htail
    · have hne : m.fillOne p b ≠ p b := of_decide_eq_true hhead
      have hssub : m.fillOne p b ⊂ p b := by
        rw [Finset.ssubset_def]
        refine ⟨m.fill_subset p b, fun hba => hne ?_⟩
        exact Finset.Subset.antisymm (m.fill_subset p b) hba
      refine ⟨b, List.mem_cons_self b bs, ?_⟩
      have hsub := runPassAux_subset m bs (updFn p b (m.fillOne p b)) b
      have hupd : updFn p b (m.fillOne p b) b = m.fillOne p b := by
        unfold updFn; rw [if_pos rfl]
      rw [hupd] at hsub
      exact finsetSubsetSSubset hsub hssub
    · obtain ⟨b0, hb0, hlt⟩ := ih (updFn p b (m.fillOne p b)) htail
      refine ⟨b0, List.mem_cons_of_mem b hb0, ?_⟩
      have hupd : updFn p b (m.fillOne p b) b0 ⊆ p b0 := by
        unfold updFn
        by_cases hy : b0 = b
        · rw [if_pos hy, hy]
          exact m.fill_subset p b
        · rw [if_neg hy]
      exact finsetSSubsetSubset hlt hupd

/-- Sums of pointwise-bounded maps are bounded. -/
theorem listSumLe {β : Type} (l : List β) (f g : β → Nat)
    (h : ∀ x ∈ l, f x ≤ g x) : (l.map f).sum ≤ (l.map g).sum := by
  induction l with
  | nil => exact Nat.le_refl 0
  | cons a as ih =>
    simp only [List.map_cons, List.sum_cons]
    exact Nat.add_le_add (h a (List.mem_cons_self a as))
      (ih fun x hx => h x (List.mem_cons_of_mem a hx))

/-- A strict pointwise drop at one member makes the sum strictly smaller. -/
theorem listSumLt {β : Type} (l : List β) (f g : β → Nat)
    (h : ∀ x ∈ l, f x ≤ g x) (b0 : β) (hb : b0 ∈ l) (hlt : f b0 < g b0) :
    (l.map f).sum < (l.map g).sum := by
  induction l with
  | nil => exact absurd hb (List.not_mem_nil b0)
  | cons a as ih =>
    simp only [List.map_cons, List.sum_cons]
    rcases List.mem_cons.mp hb with rfl | hmem
    · exact Nat.add_lt_add_of_lt_of_le hlt
        (listSumLe as f g fun x hx => h x (List.mem_cons_of_mem b0 hx))
    · exact Nat.add_lt_add_of_le_of_lt (h a (List.mem_cons_self a as))
        (ih (fun x hx => h x (List.mem_cons_of_mem a hx)) hmem)

/-- The total pending-placeholder count strictly decreases across any pass
that reports a change. -/
theorem runPass_measure {β : Type} [DecidableEq β] (m : FillModel β)
    (p : β → Finset Nat) (h : (runPass m p).2 = true) :
    (m.blocks.map fun b => ((runPass m p).1 b).card).sum <
      (m.blocks.map fun b => (p b).card).sum := by
  obtain ⟨b0, hb0, hlt⟩ := runPassAux_progress m m.blocks p h
  exact listSumLt m.blocks _ _
    (fun x _ => Finset.card_le_card (runPassAux_subset m m.blocks p x))
    b0 hb0 (Finset.card_lt_card hlt)

/-- The fixpoint loop of `Function::Lift` (function.cc lines 115-121): run
a full fill pass over every block and repeat while some `FillPhis` call
reported a change; the loop exits after the first pass that makes no
progress.  Total because `runPass_measure` bounds each changing pass. -/
def fillLoop {β : Type} [DecidableEq β] (m : FillModel β)
    (p : β → Finset Nat) : β → Finset Nat :=
  if h : (runPass m p).2 = true then fillLoop m (runPass m p).1
  else (runPass m p).1
termination_by (m.blocks.map fun b => (p b).card).sum
decreasing_by exact runPass_measure m p h

/-- The loop only shrinks pending sets and stops in a state on which a
further pass reports no change. -/
theorem fillLoop_aux {β : Type} [DecidableEq β] (m : FillModel β) :
    ∀ (n : Nat) (p : β → Finset Nat),
      (m.blocks.map fun b => (p b).card).sum = n →
      (∀ x, fillLoop m p x ⊆ p x) ∧ (runPass m (fillLoop m p)).2 = false := by
  intro n
  induction n using Nat.strong_induction_on with
  | _ n ih =>
    intro p hn
    rw [fillLoop]
    by_cases h : (runPass m p).2 = true
    · rw [dif_pos h]
      have hlt : (m.blocks.map fun b => (((runPass m p).1) b).card).sum < n :=
        hn ▸ runPass_measure m p h
      have hrec := ih _ hlt (runPass m p).1 rfl
      refine ⟨fun x => subset_trans (hrec.1 x) ?_, hrec.2⟩
      exact runPassAux_subset m m.blocks p x
    · rw [dif_neg h]
      have hfalse : (runPass m p).2 = false := by
        simpa using h
      have hid : (runPass m p).1 = p :=
        funext (runPassAux_nochange m m.blocks p hfalse)
      exact ⟨fun x => runPassAux_subset m m.blocks p x, by rw [hid]; exact hfalse⟩

/-- C5: the merge-placeholder fill loop terminates for every input.  The
loop function `fillLoop` is total (its recursion is bounded by the strictly
decreasing total pending count); pending placeholders only ever shrink and
are never re-opened; a pass that reports a change filled at least one
placeholder of some visited block; a pass that reports no change leaves
every block unchanged; and the loop exits in a state on which a further
full pass makes no progress. -/
theorem fill_loop_terminates {β : Type} [DecidableEq β] (m : FillModel β)
    (p : β → Finset Nat) :
    (∀ x, fillLoop m p x ⊆ p x) ∧
    (runPass m (fillLoop m p)).2 = false ∧
    (∀ q, (runPass m q).2 = true → ∃ b0 ∈ m.blocks, (runPass m q).1 b0 ⊂ q b0) ∧
    (∀ q, (runPass m q).2 = false → ∀ x, (runPass m q).1 x = q x) := by
  have := fillLoop_aux m ((m.blocks.map fun b => (p b).card).sum) p rfl
  exact ⟨this.1, this.2, fun q hq => runPassAux_progress m m.blocks q hq,
    fun q hq => runPassAux_nochange m m.blocks q hq⟩

end Rellume
